import Mathlib

/-!
Verification development for the faster-unmixer repository
(`sample_network_unmix.py`, `synthetic_test.py`).

The Python source is shallowly embedded: numeric values (Python floats)
are modelled as exact rationals, Python dictionaries as association
lists, exceptions and failing assertions as `Except.error`, and the
imperative per-node accumulation loops as folds over the topological
order of the network.  The external convex solver (cvxpy backend) is out
of scope and is represented, where needed, as an abstract result that is
only returned once every check preceding the solver call has passed.
-/

/-! ## ReciprocalParameter (sample_network_unmix.py, lines 32-97) -/

/-- Embeds the class `ReciprocalParameter`: two coupled cvxpy parameters,
`p` (the value) and `rp` (its reciprocal).  A cvxpy parameter with no
assigned value is modelled as `none`. -/
structure ReciprocalParameter where
  p : Option ℚ
  rp : Option ℚ
deriving DecidableEq, Repr

/-- A freshly constructed `ReciprocalParameter`: both underlying cvxpy
parameters start with no value assigned. -/
def ReciprocalParameter.init : ReciprocalParameter := ⟨none, none⟩

/-- Embeds the `value` setter: `self._p.value = val` and
`self._rp.value = 1 / val if val is not None else None`. -/
def ReciprocalParameter.setValue (v : Option ℚ) : ReciprocalParameter :=
  match v with
  | none => ⟨none, none⟩
  | some q => ⟨some q, some (1 / q)⟩

/-! ## The convex misfit surrogate (sample_network_unmix.py, lines 100-111) -/

/-- Embeds the value of `cp_log_ratio(a, b)`:
`cp.maximum(a * b.rp, b.p * cp.inv_pos(a))`, i.e. `max(a * (1/b), b * (1/a))`,
evaluated on scalars. -/
def cp_log_ratio_val (a b : ℚ) : ℚ := max (a * (1 / b)) (b * (1 / a))

/-! ## Claims C4 and C5 -/

/-- C4: for every assigned value `v ≠ 0` the reciprocal slot `rp` equals
exactly `1/v` right after assigning `v` to the value slot `p`; assigning
the undefined value (`None`) sets both slots to undefined; and both
slots are undefined before any assignment. -/
theorem claim_C4_reciprocal_parameter (v : ℚ) (hv : v ≠ 0) :
    ((ReciprocalParameter.setValue (some v)).p = some v ∧
      (ReciprocalParameter.setValue (some v)).rp = some (1 / v)) ∧
    (ReciprocalParameter.setValue none).p = none ∧
    (ReciprocalParameter.setValue none).rp = none ∧
    ReciprocalParameter.init.p = none ∧
    ReciprocalParameter.init.rp = none := by
  refine ⟨⟨rfl, rfl⟩, rfl, rfl, rfl, rfl⟩

/-- Witness for C4 at the concrete value `v = 4`. -/
theorem claim_C4_reciprocal_parameter_witness :
    (4 : ℚ) ≠ 0 ∧
    ((ReciprocalParameter.setValue (some 4)).p = some 4 ∧
      (ReciprocalParameter.setValue (some 4)).rp = some (1 / 4)) ∧
    (ReciprocalParameter.setValue none).p = none ∧
    (ReciprocalParameter.setValue none).rp = none ∧
    ReciprocalParameter.init.p = none ∧
    ReciprocalParameter.init.rp = none :=
  ⟨by decide, claim_C4_reciprocal_parameter 4 (by decide)⟩

/-- C5: for positive `a`, `b` the misfit surrogate `max(a/b, b/a)` is at
least 1, equals 1 exactly when `a = b`, is symmetric in its arguments,
and is non-negative (hence minimized exactly at `a = b`). -/
theorem claim_C5_misfit_surrogate (a b : ℚ) (ha : 0 < a) (hb : 0 < b) :
    1 ≤ cp_log_ratio_val a b ∧
    (cp_log_ratio_val a b = 1 ↔ a = b) ∧
    cp_log_ratio_val a b = cp_log_ratio_val b a ∧
    0 ≤ cp_log_ratio_val a b := by
  have hb0 : b ≠ 0 := ne_of_gt hb
  have ha0 : a ≠ 0 := ne_of_gt ha
  have hrw : cp_log_ratio_val a b = max (a / b) (b / a) := by
    unfold cp_log_ratio_val
    rw [mul_one_div, mul_one_div]
  constructor
  · rw [hrw]
    rcases le_total a b with h | h
    · exact le_max_of_le_right ((one_le_div ha).mpr h)
    · exact le_max_of_le_left ((one_le_div hb).mpr h)
  refine ⟨?_, ?_, ?_⟩
  · constructor
    · intro h1
      rw [hrw] at h1
      have hab : a / b ≤ 1 := by
        rw [← h1]; exact le_max_left _ _
      have hba : b / a ≤ 1 := by
        rw [← h1]; exact le_max_right _ _
      have h2 : a ≤ b := (div_le_one hb).mp hab
      have h3 : b ≤ a := (div_le_one ha).mp hba
      exact le_antisymm h2 h3
    · intro h
      subst h
      rw [hrw, div_self ha0, max_self]
  · unfold cp_log_ratio_val
    exact max_comm _ _
  · rw [hrw]
    exact le_trans (le_of_lt (div_pos ha hb)) (le_max_left _ _)

/-- Witness for C5 at the concrete positive pair `a = 3`, `b = 5`. -/
theorem claim_C5_misfit_surrogate_witness :
    ((0 : ℚ) < 3 ∧ (0 : ℚ) < 5) ∧
    (1 ≤ cp_log_ratio_val 3 5 ∧
      (cp_log_ratio_val 3 5 = 1 ↔ (3 : ℚ) = 5) ∧
      cp_log_ratio_val 3 5 = cp_log_ratio_val 5 3 ∧
      0 ≤ cp_log_ratio_val 3 5) :=
  ⟨⟨by decide, by decide⟩, claim_C5_misfit_surrogate 3 5 (by decide) (by decide)⟩

/-! ## Network topology (sample_network_unmix.py, lines 142-162 and 203-234) -/

/-- Outcome of a Python call that may raise: `Except.error` is a raised
exception (or a failing `assert`). -/
def exceptIsError {ε α : Type} : Except ε α → Bool
  | Except.error _ => true
  | Except.ok _ => false

/-- Embeds `nx_get_downstream(G, x)` given the successor list of `x`:
no successor yields `None`, one successor yields it, and two or more
raise `More than one downstream neighbour!`. -/
def nx_get_downstream {V : Type} (succs : List V) : Except String (Option V) :=
  match succs with
  | [] => Except.ok none
  | [d] => Except.ok (some d)
  | _ :: _ :: _ => Except.error "More than one downstream neighbour!"

/-- Embeds the edge construction of `get_sample_graphs`: every node
record `(name, downstream_node)` whose name is not the root contributes
the edge `(name, downstream_node)` unless the downstream node is the
root. -/
def sample_graph_edges (records : List (String × String)) (root : String) :
    List (String × String) :=
  records.filter (fun r => decide (r.1 ≠ root) && decide (r.2 ≠ root))

/-- Out-degree of `v` in the constructed sample network graph. -/
def out_degree (records : List (String × String)) (root : String) (v : String) : ℕ :=
  ((sample_graph_edges records root).filter (fun r => decide (r.1 = v))).length

/-- Embeds the downstream lookups performed while traversing the nodes
during `_build_primary_terms`: each node's successor list is passed to
`nx_get_downstream`, and a raised exception aborts the traversal. -/
def build_downstream_check {V : Type} (succs : V → List V) : List V → Except String Unit
  | [] => Except.ok ()
  | x :: rest =>
    match nx_get_downstream (succs x) with
    | Except.error msg => Except.error msg
    | Except.ok _ => build_downstream_check succs rest

theorem countP_fst_le_one (records : List (String × String)) (v : String)
    (hnodup : (records.map Prod.fst).Nodup) :
    records.countP (fun r => decide (r.1 = v)) ≤ 1 := by
  induction records with
  | nil => simp
  | cons r rs ih =>
    rw [List.countP_cons]
    by_cases hv : r.1 = v
    · have hzero : rs.countP (fun r => decide (r.1 = v)) = 0 := by
        rw [List.countP_eq_zero]
        intro q hq
        simp only [decide_eq_true_eq]
        intro hq1
        exact (List.nodup_cons.mp hnodup).1
          (by rw [hv, ← hq1]; exact List.mem_map_of_mem Prod.fst hq)
      simp [hzero, hv]
    · have hrec := ih (List.nodup_cons.mp hnodup).2
      simpa [hv] using hrec

theorem out_degree_le_one (records : List (String × String)) (root v : String)
    (hnodup : (records.map Prod.fst).Nodup) : out_degree records root v ≤ 1 := by
  unfold out_degree sample_graph_edges
  have hsub : ((records.filter (fun r => decide (r.1 ≠ root) && decide (r.2 ≠ root))).filter
      (fun r => decide (r.1 = v))).Sublist (records.filter (fun r => decide (r.1 = v))) :=
    (records.filter_sublist).filter _
  refine le_trans hsub.length_le ?_
  rw [← List.countP_eq_length_filter]
  exact countP_fst_le_one records v hnodup

theorem build_downstream_check_error {V : Type} (succs : V → List V) (order : List V)
    (v : V) (hv : v ∈ order) (hlen : 2 ≤ (succs v).length) :
    exceptIsError (build_downstream_check succs order) = true := by
  induction order with
  | nil => cases hv
  | cons x rest ih =>
    unfold build_downstream_check
    rcases List.mem_cons.mp hv with heq | hv'
    · have hng : nx_get_downstream (succs x) =
          Except.error "More than one downstream neighbour!" := by
        rw [← heq]
        match hs : succs v with
        | [] => rw [hs] at hlen; simp at hlen
        | [d] => rw [hs] at hlen; simp at hlen
        | a :: b :: t => rfl
      rw [hng]
      rfl
    · match hnx : nx_get_downstream (succs x) with
      | Except.error msg => rfl
      | Except.ok d => exact ih hv'

/-- C6: in every constructed sample network each node has out-degree at
most one (node names are unique, and at most one downstream edge is
added per node), and a node discovered during the problem-construction
traversal to have two or more downstream edges makes the traversal raise
the fatal topology-violation exception. -/
theorem claim_C6_out_degree (records : List (String × String)) (root v : String)
    (succs : String → List String) (order : List String) (w : String)
    (hnodup : (records.map Prod.fst).Nodup)
    (hw : w ∈ order) (hlen : 2 ≤ (succs w).length) :
    out_degree records root v ≤ 1 ∧
    exceptIsError (build_downstream_check succs order) = true :=
  ⟨out_degree_le_one records root v hnodup,
    build_downstream_check_error succs order w hw hlen⟩

/-- Witness for C6: a two-record network and a traversal hitting a node
with two successors. -/
theorem claim_C6_out_degree_witness :
    out_degree [("a", "c"), ("b", "c")] "root" "a" ≤ 1 ∧
    exceptIsError (build_downstream_check
      (fun v => if v = "a" then ["b", "c"] else []) ["a", "b"]) = true :=
  claim_C6_out_degree [("a", "c"), ("b", "c")] "root" "a"
    (fun v => if v = "a" then ["b", "c"] else []) ["a", "b"] "a"
    (by decide) (by decide) (by decide)

/-! ## The solve driver (sample_network_unmix.py, lines 433-583)

`solve` binds observation parameters, export-rate parameters and total
flux parameters, checks the regularization strength, and only then
invokes the external convex solver.  The parameter-binding steps are
embedded below; a failing Python `assert` or a raised exception is an
`Except.error`.  The numeric normalization by the geometric mean of the
observations is real-valued and does not influence any of the checks, so
observation binding is modelled by its checks alone.  The external
solver is abstracted as an arbitrary value `solverResult` that the model
returns exactly when every preceding check has passed. -/

/-- Embeds `_set_observation_parameters`: every observed site must exist
in the network (`assert site in self._site_to_observation`), and after
assignment every site of the network must carry an observation
(`assert x.value is not None`). -/
def set_observation_parameters (sites : List String) (obs : List (String × ℚ)) :
    Except String Unit :=
  if obs.all (fun p => decide (p.1 ∈ sites)) then
    if sites.all (fun s => decide (s ∈ obs.map Prod.fst)) then Except.ok ()
    else Except.error "assert failed: a site in the problem was not assigned an observation"
  else Except.error "assert failed: observed site does not exist in the network"

/-- Embeds `_set_export_rate_parameters`: a falsy `export_rates`
argument (absent, i.e. `none`, or an empty dictionary) assigns the
default export rate 1 to every site; a non-empty dictionary must name
only known sites (`assert site in self._site_to_export_rate`) and, after
assignment, every site must carry a rate (`assert x.value is not None`).
On success the resulting site-to-rate binding is returned (for a
duplicated key the last assignment wins). -/
def set_export_rate_parameters (sites : List String)
    (rates : Option (List (String × ℚ))) : Except String (String → ℚ) :=
  match rates with
  | none => Except.ok (fun _ => 1)
  | some [] => Except.ok (fun _ => 1)
  | some rs =>
    if rs.all (fun p => decide (p.1 ∈ sites)) then
      if sites.all (fun s => decide (s ∈ rs.map Prod.fst)) then
        Except.ok (fun s => (((rs.reverse.find? (fun p => decide (p.1 = s))).map Prod.snd).getD 1))
      else Except.error "assert failed: a site in the problem was not assigned an export rate"
    else Except.error "assert failed: export-rate site does not exist in the network"

/-- Python truthiness of the optional `regularization_strength` argument:
`not regularization_strength` is `True` exactly when the argument is
`None` or `0`. -/
def strengthTruthy : Option ℚ → Bool
  | none => false
  | some v => decide (v ≠ 0)

/-- Embeds the control flow of `SampleNetworkUnmixer.solve`: bind
observations, bind export rates, bind total fluxes (which cannot fail:
every network site has a flux parameter), check the regularization
strength, assign it to `self._regularizer_strength` (a
`cp.Parameter(nonneg=True)`, so cvxpy raises `ValueError` when a
negative value is assigned, while `None` and non-negative values are
accepted), and only then call the external solver, whose outcome is the
abstract `solverResult`. -/
def solveModel {α : Type} (sites : List String) (obs : List (String × ℚ))
    (rates : Option (List (String × ℚ))) (hasRegTerms : Bool)
    (strength : Option ℚ) (solverResult : α) : Except String α :=
  match set_observation_parameters sites obs with
  | Except.error msg => Except.error msg
  | Except.ok _ =>
    match set_export_rate_parameters sites rates with
    | Except.error msg => Except.error msg
    | Except.ok _ =>
      if hasRegTerms && !strengthTruthy strength then
        Except.error "WARNING: Regularizer terms present but no strength assigned."
      else
        match strength with
        | some v =>
          if v < 0 then Except.error "ValueError: Parameter value must be nonnegative."
          else Except.ok solverResult
        | none => Except.ok solverResult

/-! ## Claims C3, C7 and C10 -/

/-- Counterexample to C3 as stated: with a regularizer term present,
calling solve with regularization strength equal to 0 does not succeed;
Python `not 0` is `True`, so the configuration error is raised. -/
theorem claim_C3_regularization_counterexample :
    solveModel ["s1"] [("s1", (2 : ℚ))] none true (some 0) (0 : ℕ) =
      Except.error "WARNING: Regularizer terms present but no strength assigned." := by
  rfl

/-- C3 (amended): for a problem with at least one regularizer term and a
well-formed observation binding, calling solve without specifying a
regularization strength fails with the configuration error before the
external solver is consulted (the result is that error for every
possible solver result), and calling solve with regularization strength
equal to 0 fails in exactly the same way: Python `not 0` is `True`, so
a zero strength is treated like an absent one. -/
theorem claim_C3_regularization_strength (sites : List String) (obs : List (String × ℚ))
    (strength : Option ℚ)
    (hobs1 : obs.all (fun p => decide (p.1 ∈ sites)) = true)
    (hobs2 : sites.all (fun s => decide (s ∈ obs.map Prod.fst)) = true)
    (hstrength : strength = none ∨ strength = some 0) :
    ∀ (α : Type) (r : α), solveModel sites obs none true strength r =
      Except.error "WARNING: Regularizer terms present but no strength assigned." := by
  have hobs : set_observation_parameters sites obs = Except.ok () := by
    unfold set_observation_parameters
    simp [hobs1, hobs2]
  rcases hstrength with rfl | rfl <;> intro α r <;>
    simp [solveModel, hobs, set_export_rate_parameters, strengthTruthy]

/-- Witness for C3 (amended) with one site, one observation, strength
absent. -/
theorem claim_C3_regularization_strength_witness :
    ([("s1", (2 : ℚ))].all (fun p => decide (p.1 ∈ ["s1"])) = true ∧
      ["s1"].all (fun s => decide (s ∈ [("s1", (2 : ℚ))].map Prod.fst)) = true) ∧
    solveModel ["s1"] [("s1", (2 : ℚ))] none true none (0 : ℕ) =
      Except.error "WARNING: Regularizer terms present but no strength assigned." :=
  ⟨⟨by decide, by decide⟩,
    claim_C3_regularization_strength ["s1"] [("s1", 2)] none (by decide) (by decide)
      (Or.inl rfl) ℕ 0⟩

/-- C7: if the observation data names an unknown site, or misses a known
site, or a non-empty export-rate input names an unknown site, the solve
call fails before the external solver is invoked: the outcome is an
error for every possible solver result. -/
theorem claim_C7_solve_input_validation (sites : List String) (obs : List (String × ℚ))
    (rates : Option (List (String × ℚ))) (hasRegTerms : Bool) (strength : Option ℚ)
    (hbad : obs.all (fun p => decide (p.1 ∈ sites)) = false ∨
        sites.all (fun s => decide (s ∈ obs.map Prod.fst)) = false ∨
        (∃ rs, rates = some rs ∧ rs ≠ [] ∧
          rs.all (fun p => decide (p.1 ∈ sites)) = false)) :
    ∀ (α : Type) (r : α),
      exceptIsError (solveModel sites obs rates hasRegTerms strength r) = true := by
  intro α r
  rcases hbad with h1 | h2 | ⟨rs, rfl, hne, hallf⟩
  · simp [solveModel, set_observation_parameters, h1, exceptIsError]
  · by_cases h1 : obs.all (fun p => decide (p.1 ∈ sites)) = true
    · simp [solveModel, set_observation_parameters, h1, h2, exceptIsError]
    · have h1f : obs.all (fun p => decide (p.1 ∈ sites)) = false := by
        simpa using h1
      simp [solveModel, set_observation_parameters, h1f, exceptIsError]
  · by_cases h1 : obs.all (fun p => decide (p.1 ∈ sites)) = true
    · by_cases h2 : sites.all (fun s => decide (s ∈ obs.map Prod.fst)) = true
      · match rs, hne with
        | p :: ps, _ =>
          simp [solveModel, set_observation_parameters, h1, h2,
            set_export_rate_parameters, hallf, exceptIsError]
      · have h2f : sites.all (fun s => decide (s ∈ obs.map Prod.fst)) = false := by
          simpa using h2
        simp [solveModel, set_observation_parameters, h1, h2f, exceptIsError]
    · have h1f : obs.all (fun p => decide (p.1 ∈ sites)) = false := by
        simpa using h1
      simp [solveModel, set_observation_parameters, h1f, exceptIsError]

/-- Witness for C7: the single observation names a site unknown to the
one-site network. -/
theorem claim_C7_solve_input_validation_witness :
    ([("s2", (1 : ℚ))].all (fun p => decide (p.1 ∈ ["s1"])) = false) ∧
    exceptIsError (solveModel ["s1"] [("s2", (1 : ℚ))] none false none (0 : ℕ)) = true :=
  ⟨by decide,
    claim_C7_solve_input_validation ["s1"] [("s2", 1)] none false none
      (Or.inl (by decide)) ℕ 0⟩

/-- C10: a supplied non-empty export-rate input that omits a known site
makes the solve call abort before the external solver is invoked (the
omitted sites are not defaulted to 1), while a wholly omitted or empty
export-rate input assigns the default export rate 1 to every site. -/
theorem claim_C10_export_rate_defaulting (sites : List String) (rs : List (String × ℚ))
    (hne : rs ≠ [])
    (hknown : rs.all (fun p => decide (p.1 ∈ sites)) = true)
    (hmiss : sites.all (fun s => decide (s ∈ rs.map Prod.fst)) = false) :
    (∀ (α : Type) (r : α) (obs : List (String × ℚ)) (hasRegTerms : Bool)
        (strength : Option ℚ),
      exceptIsError (solveModel sites obs (some rs) hasRegTerms strength r) = true) ∧
    set_export_rate_parameters sites none = Except.ok (fun _ => 1) ∧
    set_export_rate_parameters sites (some []) = Except.ok (fun _ => 1) := by
  refine ⟨?_, rfl, rfl⟩
  intro α r obs hasRegTerms strength
  by_cases h1 : obs.all (fun p => decide (p.1 ∈ sites)) = true
  · by_cases h2 : sites.all (fun s => decide (s ∈ obs.map Prod.fst)) = true
    · match rs, hne, hknown, hmiss with
      | p :: ps, _, hknown, hmiss =>
        simp only [solveModel, set_observation_parameters, h1, h2,
          set_export_rate_parameters, hknown, hmiss, exceptIsError,
          Bool.false_eq_true, Bool.true_eq_false, if_true, if_false]
    · have h2f : sites.all (fun s => decide (s ∈ obs.map Prod.fst)) = false := by
        simpa using h2
      simp [solveModel, set_observation_parameters, h1, h2f, exceptIsError]
  · have h1f : obs.all (fun p => decide (p.1 ∈ sites)) = false := by
      simpa using h1
    simp [solveModel, set_observation_parameters, h1f, exceptIsError]

/-- Witness for C10: a two-site network with an export rate supplied for
only one of the sites. -/
theorem claim_C10_export_rate_defaulting_witness :
    ([("s1", (2 : ℚ))] ≠ ([] : List (String × ℚ)) ∧
      [("s1", (2 : ℚ))].all (fun p => decide (p.1 ∈ ["s1", "s2"])) = true ∧
      ["s1", "s2"].all (fun s => decide (s ∈ [("s1", (2 : ℚ))].map Prod.fst)) = false) ∧
    exceptIsError (solveModel ["s1", "s2"] [("s1", (3 : ℚ)), ("s2", (4 : ℚ))]
      (some [("s1", (2 : ℚ))]) false none (0 : ℕ)) = true :=
  ⟨⟨by decide, by decide, by decide⟩,
    (claim_C10_export_rate_defaulting ["s1", "s2"] [("s1", 2)]
      (by decide) (by decide) (by decide)).1 ℕ 0 [("s1", 3), ("s2", 4)] false none⟩

/-! ## InverseGrid construction (sample_network_unmix.py, lines 768-875)

The constructor builds an `nx` by `ny` grid of cells over the label
raster.  Each cell is keyed by the catchment label found at the raster
pixel under its centre (`none` is the `NaN` sentinel for the unclaimed
label 0; the network's label-to-sample-name mapping is a bijection and
is modelled as the identity, so cells are keyed by labels).  The model
returns the row-of-cells key list that determines `sites_to_nodes`. -/

/-- Python `int(q)` on a rational: truncation toward zero
(`Int.tdiv` is T-division, matching Python `int()`). -/
def pyInt (q : ℚ) : ℤ := Int.tdiv q.num (q.den : ℤ)

/-- Embeds `np.linspace(start, stop, num)`: `num` evenly spaced points
from `start` to `stop` inclusive. -/
def linspace (start stop : ℚ) (num : ℕ) : List ℚ :=
  if num = 1 then [start]
  else (List.range num).map (fun t => start + t * (stop - start) / ((num : ℚ) - 1))

/-- The cell-centre coordinates along one axis:
`linspace(step/2, extent - step/2, cells)` with `step = extent / cells`. -/
def cellCoords (extent cells : ℕ) : List ℚ :=
  linspace ((extent : ℚ) / (cells : ℚ) / 2)
    ((extent : ℚ) - (extent : ℚ) / (cells : ℚ) / 2) cells

/-- Label of the raster pixel at row `r`, column `c` (out-of-range reads
never happen for in-range cell centres; 0 is the unclaimed label). -/
def labelAt (labels : List (List ℕ)) (r c : ℕ) : ℕ := (labels.getD r []).getD c 0

/-- The key (catchment label, or `none` for the `NaN` sentinel) of every
grid cell, looping over columns and, inside, over rows, exactly as the
constructor does: `label = area_labels[int(y_coord), int(x_coord)]`. -/
def gridCellKeys (labels : List (List ℕ)) (nxn nyn : ℕ) : List (Option ℕ) :=
  let xmax := (labels.getD 0 []).length
  let ymax := labels.length
  (cellCoords xmax nxn).flatMap (fun x =>
    (cellCoords ymax nyn).map (fun y =>
      let label := labelAt labels (pyInt y).toNat (pyInt x).toNat
      if label = 0 then none else some label))

/-- Embeds `InverseGrid.__init__`: raise if `nx` or `ny` is not strictly
positive, raise if the requested resolution exceeds that of the raster,
build the cells, and raise if the number of distinct keys
(`len(self.sites_to_nodes)`) is less than the number of distinct raster
labels (`len(np.unique(self.area_labels))`) minus one. -/
def inverse_grid_init (nx ny : ℤ) (labels : List (List ℕ)) :
    Except String (List (Option ℕ)) :=
  if nx ≤ 0 ∨ ny ≤ 0 then Except.error "Warning: nx or ny must be strictly positive"
  else if (labels.length : ℤ) < ny ∨ ((labels.getD 0 []).length : ℤ) < nx then
    Except.error "Warning: desired resolution greater than that of DEM."
  else if (gridCellKeys labels nx.toNat ny.toNat).dedup.length <
      labels.flatten.dedup.length - 1 then
    Except.error "Warning: Not all catchments contain a node."
  else Except.ok (gridCellKeys labels nx.toNat ny.toNat)

/-! ## Claim C8 -/

/-- Counterexample to C8 as stated: on the raster `[[1, 2]]` with a
1-by-1 grid, the single cell centre lands on label 2, so catchment
label 1 (present in the raster) owns zero grid cells, yet construction
succeeds: the under-resolution check only compares the number of
distinct keys against the number of distinct raster labels minus one. -/
theorem gridCellKeys_on_example : gridCellKeys [[1, 2]] 1 1 = [some 2] := by
  have hx : cellCoords 2 1 = [1] := by
    unfold cellCoords linspace
    norm_num
  have hy : cellCoords 1 1 = [1 / 2] := by
    unfold cellCoords linspace
    norm_num
  have hp1 : (pyInt 1).toNat = 1 := by
    unfold pyInt
    rw [show ((1 : ℚ)).num = 1 by norm_num, show (((1 : ℚ)).den : ℤ) = 1 by norm_num]
    decide
  have hp2 : (pyInt (1 / 2)).toNat = 0 := by
    unfold pyInt
    rw [show ((1 : ℚ) / 2).num = 1 by norm_num, show (((1 : ℚ) / 2).den : ℤ) = 2 by norm_num]
    decide
  unfold gridCellKeys
  norm_num [hx, hy, hp1, hp2, labelAt]

theorem claim_C8_inverse_grid_counterexample :
    inverse_grid_init 1 1 [[1, 2]] = Except.ok [some 2] ∧
    (1 : ℕ) ∈ [[1, 2]].flatten ∧ (1 : ℕ) ≠ 0 ∧ some (1 : ℕ) ∉ [some (2 : ℕ)] := by
  refine ⟨?_, by decide, by decide, by decide⟩
  unfold inverse_grid_init
  rw [if_neg (by decide), if_neg (by decide)]
  simp only [show Int.toNat 1 = 1 from rfl]
  rw [gridCellKeys_on_example]
  rw [if_neg (by decide)]

/-- C8 (amended): constructing an InverseGrid fails when `nx ≤ 0` or
`ny ≤ 0` and fails when `nx` exceeds the raster's column count or `ny`
its row count; the zero-cell condition, however, is only the count test
`number of distinct cell keys < number of distinct raster labels - 1`
(the `NaN` sentinel key counts), so construction fails exactly when that
test holds and otherwise succeeds, even if some raster catchment label
owns no grid cell. -/
theorem claim_C8_inverse_grid (nx ny : ℤ) (labels : List (List ℕ)) :
    ((nx ≤ 0 ∨ ny ≤ 0) → exceptIsError (inverse_grid_init nx ny labels) = true) ∧
    (0 < nx → 0 < ny →
      ((labels.length : ℤ) < ny ∨ ((labels.getD 0 []).length : ℤ) < nx) →
      exceptIsError (inverse_grid_init nx ny labels) = true) ∧
    (0 < nx → 0 < ny → ny ≤ (labels.length : ℤ) → nx ≤ ((labels.getD 0 []).length : ℤ) →
      (exceptIsError (inverse_grid_init nx ny labels) = true ↔
        (gridCellKeys labels nx.toNat ny.toNat).dedup.length <
          labels.flatten.dedup.length - 1) ∧
      (¬ (gridCellKeys labels nx.toNat ny.toNat).dedup.length <
          labels.flatten.dedup.length - 1 →
        inverse_grid_init nx ny labels =
          Except.ok (gridCellKeys labels nx.toNat ny.toNat))) := by
  refine ⟨?_, ?_, ?_⟩
  · intro h
    unfold inverse_grid_init
    rw [if_pos h]
    rfl
  · intro hx hy h
    unfold inverse_grid_init
    rw [if_neg (by push_neg; omega), if_pos h]
    rfl
  · intro hx hy hyr hxr
    have h1 : ¬ (nx ≤ 0 ∨ ny ≤ 0) := by omega
    have h2 : ¬ ((labels.length : ℤ) < ny ∨ ((labels.getD 0 []).length : ℤ) < nx) := by
      omega
    constructor
    · unfold inverse_grid_init
      rw [if_neg h1, if_neg h2]
      by_cases hc : (gridCellKeys labels nx.toNat ny.toNat).dedup.length <
          labels.flatten.dedup.length - 1
      · rw [if_pos hc]
        simpa [exceptIsError] using hc
      · rw [if_neg hc]
        simpa [exceptIsError] using hc
    · intro hc
      unfold inverse_grid_init
      rw [if_neg h1, if_neg h2, if_neg hc]

/-- Witness for C8 (amended): the resolution check fires for a 3-by-1
grid over a 1-by-1 raster. -/
theorem claim_C8_inverse_grid_witness :
    ((0 : ℤ) < 3 ∧ (0 : ℤ) < 1 ∧
      ((([[1]] : List (List ℕ)).length : ℤ) < 1 ∨
        ((([[1]] : List (List ℕ)).getD 0 []).length : ℤ) < 3)) ∧
    exceptIsError (inverse_grid_init 3 1 [[1]]) = true :=
  ⟨⟨by decide, by decide, by decide⟩,
    (claim_C8_inverse_grid 3 1 [[1]]).2.1 (by decide) (by decide) (Or.inr (by decide))⟩

/-! ## Flux accumulation (sample_network_unmix.py, lines 898-949 and 306-377)

`mix_downstream` (and, with the mean-normalised `rltv_area` in place of
`area`, `_build_primary_terms`) walks the nodes in topological order
keeping two mutable per-node accumulators, `my_total_flux` and
`my_total_tracer_flux`, both reset to 0 beforehand.  At each node it
adds the node's own contribution (`area*export_rate` and
`area*export_rate*tracer_value`) to the node's accumulators and then
adds the node's accumulators to those of its unique downstream
neighbour, if any.  The per-node tracer value (`np.mean` of the
concentration map over the node's sub-basin, or the cvxpy expression) is
abstracted as an arbitrary rational per node, and the loop is a fold
over the topological order. -/

/-- The two per-node accumulators of the mixing loop. -/
structure MixState (V : Type) where
  totalFlux : V → ℚ
  totalTracerFlux : V → ℚ

/-- One iteration of the accumulation loop at node `x`: add the node's
own flux and tracer flux, then push both running totals to the
downstream neighbour `ds x` when it exists. -/
def mixStep {V : Type} [DecidableEq V] (ds : V → Option V) (area rate tracer : V → ℚ)
    (s : MixState V) (x : V) : MixState V :=
  let myFlux := area x * rate x
  let myTracerFlux := myFlux * tracer x
  let f1 : V → ℚ := fun v => if v = x then s.totalFlux v + myFlux else s.totalFlux v
  let t1 : V → ℚ := fun v => if v = x then s.totalTracerFlux v + myTracerFlux
    else s.totalTracerFlux v
  match ds x with
  | none => ⟨f1, t1⟩
  | some d =>
    ⟨fun v => if v = d then f1 v + f1 x else f1 v,
      fun v => if v = d then t1 v + t1 x else t1 v⟩

/-- Embeds the whole accumulation loop of `mix_downstream`: accumulators
start at 0 and the loop body runs once per node, in topological order. -/
def mix_downstream {V : Type} [DecidableEq V] (ds : V → Option V)
    (area rate tracer : V → ℚ) (order : List V) : MixState V :=
  order.foldl (mixStep ds area rate tracer) ⟨fun _ => 0, fun _ => 0⟩

/-- `k`-fold iteration of the downstream map: the node reached from `u`
after following `k` downstream edges, if they all exist. -/
def dsIter {V : Type} (ds : V → Option V) : ℕ → V → Option V
  | 0, u => some u
  | k + 1, u =>
    match ds u with
    | some e => dsIter ds k e
    | none => none

/-- Fuel-bounded reachability along downstream edges: `u` reaches `n` in
at most `f` steps. -/
def reachesIn {V : Type} [DecidableEq V] (ds : V → Option V) : ℕ → V → V → Bool
  | 0, u, n => decide (u = n)
  | f + 1, u, n =>
    decide (u = n) ||
      (match ds u with
      | some e => reachesIn ds f e n
      | none => false)

/-- The upstream closure of `n`: every node of the network that reaches
`n` by following downstream edges (`n` itself included); the network
size bounds the path length. -/
def upstreamClosure {V : Type} [DecidableEq V] (ds : V → Option V) (order : List V)
    (n : V) : List V :=
  order.filter (fun u => reachesIn ds order.length u n)

/-- There is a downstream path from `u` to `n` of length at most `f`
whose nodes, except possibly the final node `n`, all lie in `P` (the
processed prefix of the topological order). -/
def midB {V : Type} [DecidableEq V] (ds : V → Option V) (P : List V) :
    ℕ → V → V → Bool
  | 0, u, n => decide (u = n)
  | f + 1, u, n =>
    decide (u = n) ||
      (decide (u ∈ P) &&
        match ds u with
        | some e => midB ds P f e n
        | none => false)

/-- The contribution of node `u` has already been accumulated into node
`n`'s running totals once the nodes of `P` have been processed: `u` has
been processed and so has every node on the path from `u` to `n` except
possibly `n` itself. -/
def contribB {V : Type} [DecidableEq V] (ds : V → Option V) (P : List V) (f : ℕ)
    (u n : V) : Bool :=
  decide (u ∈ P) && midB ds P f u n

theorem midB_self {V : Type} [DecidableEq V] (ds : V → Option V) (P : List V)
    (f : ℕ) (u : V) : midB ds P f u u = true := by
  cases f <;> simp [midB]

theorem midB_mono_fuel {V : Type} [DecidableEq V] (ds : V → Option V) (P : List V) :
    ∀ {f g : ℕ} {u n : V}, f ≤ g → midB ds P f u n = true → midB ds P g u n = true := by
  intro f
  induction f with
  | zero =>
    intro g u n _ h0
    have : u = n := by simpa [midB] using h0
    subst this
    exact midB_self ds P g u
  | succ f ih =>
    intro g u n hfg h
    match g, hfg with
    | g + 1, hfg =>
      rw [midB] at h
      simp only [Bool.or_eq_true, Bool.and_eq_true] at h
      rcases h with h1 | ⟨hu, hrec⟩
      · have : u = n := by simpa using h1
        subst this
        exact midB_self ds P _ u
      · rw [midB]
        simp only [Bool.or_eq_true, Bool.and_eq_true]
        refine Or.inr ⟨hu, ?_⟩
        match hds : ds u with
        | some e =>
          rw [hds] at hrec
          exact ih (Nat.succ_le_succ_iff.mp hfg) hrec
        | none =>
          rw [hds] at hrec
          exact absurd hrec (by simp)

theorem midB_mono_set {V : Type} [DecidableEq V] (ds : V → Option V) {P Q : List V}
    (hPQ : ∀ v, v ∈ P → v ∈ Q) :
    ∀ {f : ℕ} {u n : V}, midB ds P f u n = true → midB ds Q f u n = true := by
  intro f
  induction f with
  | zero => intro u n h; simpa [midB] using (by simpa [midB] using h : u = n)
  | succ f ih =>
    intro u n h
    rw [midB] at h ⊢
    simp only [Bool.or_eq_true, Bool.and_eq_true] at h ⊢
    rcases h with h1 | ⟨hu, hrec⟩
    · exact Or.inl h1
    · refine Or.inr ⟨by simpa using hPQ u (by simpa using hu), ?_⟩
      match hds : ds u with
      | some e =>
        rw [hds] at hrec
        exact ih hrec
      | none =>
        rw [hds] at hrec
        exact absurd hrec (by simp)

theorem midB_succ_elim {V : Type} [DecidableEq V] {ds : V → Option V} {P : List V}
    {f : ℕ} {u n : V} (h : midB ds P (f + 1) u n = true) :
    u = n ∨ (u ∈ P ∧ ∃ e, ds u = some e ∧ midB ds P f e n = true) := by
  rw [midB] at h
  simp only [Bool.or_eq_true, Bool.and_eq_true] at h
  rcases h with h1 | ⟨hu, hrec⟩
  · exact Or.inl (by simpa using h1)
  · refine Or.inr ⟨by simpa using hu, ?_⟩
    match hds : ds u with
    | none => rw [hds] at hrec; exact absurd hrec (by simp)
    | some e => rw [hds] at hrec; exact ⟨e, rfl, hrec⟩

theorem midB_succ_intro_eq {V : Type} [DecidableEq V] (ds : V → Option V) (P : List V)
    (f : ℕ) {u n : V} (h : u = n) : midB ds P (f + 1) u n = true := by
  subst h
  exact midB_self ds P (f + 1) u

theorem midB_succ_intro_edge {V : Type} [DecidableEq V] {ds : V → Option V} {P : List V}
    {f : ℕ} {u n e : V} (hu : u ∈ P) (hds : ds u = some e)
    (hrec : midB ds P f e n = true) : midB ds P (f + 1) u n = true := by
  rw [midB]
  simp only [Bool.or_eq_true, Bool.and_eq_true]
  refine Or.inr ⟨by simpa using hu, ?_⟩
  rw [hds]
  exact hrec

theorem midB_zero_elim {V : Type} [DecidableEq V] {ds : V → Option V} {P : List V}
    {u n : V} (h : midB ds P 0 u n = true) : u = n := by
  simpa [midB] using h

theorem midB_to_reachesIn {V : Type} [DecidableEq V] (ds : V → Option V) (P : List V) :
    ∀ {f : ℕ} {u n : V}, midB ds P f u n = true → reachesIn ds f u n = true := by
  intro f
  induction f with
  | zero => intro u n h; simpa [reachesIn] using midB_zero_elim h
  | succ f ih =>
    intro u n h
    rw [reachesIn]
    simp only [Bool.or_eq_true]
    rcases midB_succ_elim h with h1 | ⟨_, e, hds, hrec⟩
    · exact Or.inl (by simpa using h1)
    · refine Or.inr ?_
      rw [hds]
      exact ih hrec

theorem reachesIn_to_midB {V : Type} [DecidableEq V] (ds : V → Option V) (order : List V)
    (hclosed : ∀ u e, u ∈ order → ds u = some e → e ∈ order) :
    ∀ {f : ℕ} {u n : V}, u ∈ order → reachesIn ds f u n = true →
      midB ds order f u n = true := by
  intro f
  induction f with
  | zero => intro u n _ h; simpa [midB, reachesIn] using h
  | succ f ih =>
    intro u n hu h
    rw [reachesIn] at h
    simp only [Bool.or_eq_true] at h
    rcases h with h1 | h2
    · exact midB_succ_intro_eq ds order f (by simpa using h1)
    · match hds : ds u with
      | some e =>
        rw [hds] at h2
        exact midB_succ_intro_edge hu hds (ih (hclosed u e hu hds) h2)
      | none =>
        rw [hds] at h2
        exact absurd h2 (by simp)

theorem dsIter_succ_of_some {V : Type} {ds : V → Option V} {u e : V} (k : ℕ)
    (h : ds u = some e) : dsIter ds (k + 1) u = dsIter ds k e := by
  rw [dsIter, h]

theorem dsIter_succ_of_none {V : Type} {ds : V → Option V} {u : V} (k : ℕ)
    (h : ds u = none) : dsIter ds (k + 1) u = none := by
  rw [dsIter, h]

theorem dsIter_mem {V : Type} {ds : V → Option V} {order : List V}
    (hclosed : ∀ u e, u ∈ order → ds u = some e → e ∈ order) :
    ∀ {k : ℕ} {u v : V}, u ∈ order → dsIter ds k u = some v → v ∈ order := by
  intro k
  induction k with
  | zero => intro u v hu h; rw [dsIter] at h; injection h with h; exact h ▸ hu
  | succ k ih =>
    intro u v hu h
    match hds : ds u with
    | some e =>
      rw [dsIter_succ_of_some k hds] at h
      exact ih (hclosed u e hu hds) h
    | none =>
      rw [dsIter_succ_of_none k hds] at h
      exact absurd h (by simp)

theorem dsIter_idx {V : Type} [DecidableEq V] {ds : V → Option V} {order : List V}
    (hclosed : ∀ u e, u ∈ order → ds u = some e → e ∈ order)
    (htopo : ∀ u e, u ∈ order → ds u = some e → order.indexOf u < order.indexOf e) :
    ∀ {k : ℕ} {u v : V}, u ∈ order → dsIter ds k u = some v →
      order.indexOf u + k ≤ order.indexOf v := by
  intro k
  induction k with
  | zero =>
    intro u v hu h
    rw [dsIter] at h
    injection h with h
    subst h
    omega
  | succ k ih =>
    intro u v hu h
    match hds : ds u with
    | some e =>
      rw [dsIter_succ_of_some k hds] at h
      have h1 := htopo u e hu hds
      have h2 := ih (hclosed u e hu hds) h
      omega
    | none =>
      rw [dsIter_succ_of_none k hds] at h
      exact absurd h (by simp)

theorem dsIter_add {V : Type} (ds : V → Option V) (a b : ℕ) :
    ∀ u, dsIter ds (a + b) u = (dsIter ds a u).bind (dsIter ds b) := by
  induction a with
  | zero => intro u; rw [Nat.zero_add]; rfl
  | succ a ih =>
    intro u
    have hra : a + 1 + b = (a + b) + 1 := by omega
    rw [hra]
    match hds : ds u with
    | some e =>
      rw [dsIter_succ_of_some (a + b) hds, dsIter_succ_of_some a hds]
      exact ih e
    | none =>
      rw [dsIter_succ_of_none (a + b) hds, dsIter_succ_of_none a hds]
      rfl

theorem midB_extract {V : Type} [DecidableEq V] (ds : V → Option V) (P : List V) :
    ∀ {f : ℕ} {u n : V}, u ∈ P → midB ds P f u n = true →
      ∃ k, k ≤ f ∧ dsIter ds k u = some n ∧
        ∀ j, j < k → ∀ v, dsIter ds j u = some v → v ∈ P := by
  intro f
  induction f with
  | zero =>
    intro u n hu h
    have hun : u = n := midB_zero_elim h
    exact ⟨0, Nat.le_refl 0, by rw [dsIter, hun], by intro j hj; omega⟩
  | succ f ih =>
    intro u n hu h
    by_cases hun : u = n
    · exact ⟨0, by omega, by rw [dsIter, hun], by intro j hj; omega⟩
    · rcases midB_succ_elim h with h1 | ⟨_, e, hds, hrec⟩
      · exact absurd h1 hun
      · by_cases hen : e = n
        · refine ⟨1, by omega, ?_, ?_⟩
          · rw [dsIter_succ_of_some 0 hds, dsIter, hen]
          · intro j hj v hv
            have hj0 : j = 0 := by omega
            rw [hj0, dsIter] at hv
            injection hv with hv
            exact hv ▸ hu
        · have heP : e ∈ P := by
            match f, hrec with
            | 0, hrec => exact absurd (midB_zero_elim hrec) hen
            | f' + 1, hrec =>
              rcases midB_succ_elim hrec with h1 | ⟨he, _⟩
              · exact absurd h1 hen
              · exact he
          obtain ⟨k, hkf, hdsk, hmem⟩ := ih heP hrec
          refine ⟨k + 1, by omega, ?_, ?_⟩
          · rw [dsIter_succ_of_some k hds]
            exact hdsk
          · intro j hj v hv
            match j, hv with
            | 0, hv =>
              rw [dsIter] at hv
              injection hv with hv
              exact hv ▸ hu
            | j' + 1, hv =>
              rw [dsIter_succ_of_some j' hds] at hv
              exact hmem j' (by omega) v hv

theorem midB_of_dsIter {V : Type} [DecidableEq V] (ds : V → Option V) (P : List V) :
    ∀ {k : ℕ} {u n : V}, dsIter ds k u = some n →
      (∀ j, j < k → ∀ v, dsIter ds j u = some v → v ∈ P) →
      midB ds P k u n = true := by
  intro k
  induction k with
  | zero =>
    intro u n h _
    rw [dsIter] at h
    injection h with h
    simp [midB, h]
  | succ k ih =>
    intro u n h hmem
    match hds : ds u with
    | none =>
      rw [dsIter_succ_of_none k hds] at h
      exact absurd h (by simp)
    | some e =>
      have hu : u ∈ P := hmem 0 (by omega) u (by rw [dsIter])
      have h' : dsIter ds k e = some n := by
        rw [dsIter_succ_of_some k hds] at h
        exact h
      have hmem' : ∀ j, j < k → ∀ v, dsIter ds j e = some v → v ∈ P := by
        intro j hj v hv
        exact hmem (j + 1) (by omega) v (by rw [dsIter_succ_of_some j hds]; exact hv)
      exact midB_succ_intro_edge hu hds (ih h' hmem')

theorem midB_append_edge {V : Type} [DecidableEq V] (ds : V → Option V) (Q : List V)
    (x d : V) (hxQ : x ∈ Q) (hxd : ds x = some d) :
    ∀ {f : ℕ} {u : V}, midB ds Q f u x = true → midB ds Q (f + 1) u d = true := by
  intro f
  induction f with
  | zero =>
    intro u h
    have hux : u = x := midB_zero_elim h
    subst hux
    exact midB_succ_intro_edge hxQ hxd (midB_self ds Q 0 d)
  | succ f ih =>
    intro u h
    rcases midB_succ_elim h with h1 | ⟨hu, e, hds, hrec⟩
    · subst h1
      exact midB_succ_intro_edge hxQ hxd (midB_self ds Q (f + 1) d)
    · exact midB_succ_intro_edge hu hds (ih hrec)

theorem midB_false_of_not_mem {V : Type} [DecidableEq V] (ds : V → Option V) (Q : List V)
    (f : ℕ) (e n : V) (heQ : e ∉ Q) (hen : e ≠ n) : midB ds Q f e n = false := by
  cases f <;> simp [midB, heQ, hen]

theorem midB_snoc_target {V : Type} [DecidableEq V] (ds : V → Option V) (P : List V)
    (x : V) :
    ∀ {f : ℕ} {u : V}, u ≠ x → midB ds (P ++ [x]) f u x = true →
      midB ds P f u x = true := by
  intro f
  induction f with
  | zero => intro u hux h; exact absurd (midB_zero_elim h) hux
  | succ f ih =>
    intro u hux h
    rcases midB_succ_elim h with h1 | ⟨hu, e, hds, hrec⟩
    · exact absurd h1 hux
    · have huP : u ∈ P := by
        rcases List.mem_append.mp hu with h | h
        · exact h
        · exact absurd (by simpa using h) hux
      by_cases hex : e = x
      · subst hex
        exact midB_succ_intro_edge huP hds (midB_self ds P f e)
      · exact midB_succ_intro_edge huP hds (ih hex hrec)

theorem midB_snoc_split {V : Type} [DecidableEq V] (ds : V → Option V) (P : List V)
    (x d : V) :
    ∀ {f : ℕ} {u : V}, midB ds (P ++ [x]) f u d = true →
      midB ds P f u d = true ∨ midB ds (P ++ [x]) f u x = true := by
  intro f
  induction f with
  | zero =>
    intro u h
    have hud : u = d := midB_zero_elim h
    exact Or.inl (by simp [midB, hud])
  | succ f ih =>
    intro u h
    rcases midB_succ_elim h with h1 | ⟨hu, e, hds, hrec⟩
    · exact Or.inl (midB_succ_intro_eq ds P f h1)
    · by_cases hux : u = x
      · exact Or.inr (midB_succ_intro_eq ds (P ++ [x]) f hux)
      · have huP : u ∈ P := by
          rcases List.mem_append.mp hu with h | h
          · exact h
          · exact absurd (by simpa using h) hux
        rcases ih hrec with hl | hr
        · exact Or.inl (midB_succ_intro_edge huP hds hl)
        · exact Or.inr (midB_succ_intro_edge hu hds hr)

theorem midB_snoc_other {V : Type} [DecidableEq V] (ds : V → Option V) (P : List V)
    (x n : V) (hnx : n ≠ x)
    (hds_x : ∀ e, ds x = some e → e ∉ P ++ [x] ∧ e ≠ n) :
    ∀ {f : ℕ} {u : V}, midB ds (P ++ [x]) f u n = true → midB ds P f u n = true := by
  intro f
  induction f with
  | zero => intro u h; simpa [midB] using h
  | succ f ih =>
    intro u h
    rcases midB_succ_elim h with h1 | ⟨hu, e, hds, hrec⟩
    · exact midB_succ_intro_eq ds P f h1
    · by_cases hux : u = x
      · obtain ⟨heQ, hen⟩ := hds_x e (hux ▸ hds)
        rw [midB_false_of_not_mem ds (P ++ [x]) f e n heQ hen] at hrec
        exact absurd hrec (by simp)
      · have huP : u ∈ P := by
          rcases List.mem_append.mp hu with h | h
          · exact h
          · exact absurd (by simpa using h) hux
        exact midB_succ_intro_edge huP hds (ih hrec)

theorem bool_eq_of_iff {a b : Bool} (h : a = true ↔ b = true) : a = b := by
  cases a <;> cases b <;> simp_all

theorem contribB_eq_true_iff {V : Type} [DecidableEq V] {ds : V → Option V} {P : List V}
    {f : ℕ} {u n : V} : contribB ds P f u n = true ↔ u ∈ P ∧ midB ds P f u n = true := by
  simp [contribB]

theorem contribB_snoc_self {V : Type} [DecidableEq V] (ds : V → Option V) (P : List V)
    (x : V) (f : ℕ) (hxP : x ∉ P) (u : V) :
    contribB ds (P ++ [x]) f u x = (contribB ds P f u x || decide (u = x)) := by
  apply bool_eq_of_iff
  constructor
  · intro h
    obtain ⟨hu, hmid⟩ := contribB_eq_true_iff.mp h
    simp only [Bool.or_eq_true, decide_eq_true_eq]
    by_cases hux : u = x
    · exact Or.inr hux
    · refine Or.inl (contribB_eq_true_iff.mpr ⟨?_, midB_snoc_target ds P x hux hmid⟩)
      rcases List.mem_append.mp hu with h | h
      · exact h
      · exact absurd (by simpa using h) hux
  · intro h
    simp only [Bool.or_eq_true, decide_eq_true_eq] at h
    rcases h with h | h
    · obtain ⟨hu, hmid⟩ := contribB_eq_true_iff.mp h
      exact contribB_eq_true_iff.mpr ⟨List.mem_append_left _ hu,
        midB_mono_set ds (fun v hv => List.mem_append_left _ hv) hmid⟩
    · exact contribB_eq_true_iff.mpr
        ⟨by rw [h]; exact List.mem_append_right _ (List.mem_cons_self x []),
          by rw [h]; exact midB_self ds (P ++ [x]) f x⟩

theorem contribB_snoc_other {V : Type} [DecidableEq V] (ds : V → Option V) (P : List V)
    (x n : V) (f : ℕ) (hxP : x ∉ P) (hnx : n ≠ x)
    (hds_x : ∀ e, ds x = some e → e ∉ P ++ [x] ∧ e ≠ n) (u : V) :
    contribB ds (P ++ [x]) f u n = contribB ds P f u n := by
  apply bool_eq_of_iff
  constructor
  · intro h
    obtain ⟨hu, hmid⟩ := contribB_eq_true_iff.mp h
    by_cases hux : u = x
    · exfalso
      match f, hmid with
      | 0, hmid => exact hnx ((midB_zero_elim hmid).symm.trans hux)
      | f' + 1, hmid =>
        rcases midB_succ_elim hmid with h1 | ⟨_, e, hds, hrec⟩
        · exact hnx (h1.symm.trans hux)
        · obtain ⟨heQ, hen⟩ := hds_x e (hux ▸ hds)
          rw [midB_false_of_not_mem ds (P ++ [x]) f' e n heQ hen] at hrec
          exact absurd hrec (by simp)
    · have huP : u ∈ P := by
        rcases List.mem_append.mp hu with h | h
        · exact h
        · exact absurd (by simpa using h) hux
      exact contribB_eq_true_iff.mpr ⟨huP, midB_snoc_other ds P x n hnx hds_x hmid⟩
  · intro h
    obtain ⟨hu, hmid⟩ := contribB_eq_true_iff.mp h
    exact contribB_eq_true_iff.mpr ⟨List.mem_append_left _ hu,
      midB_mono_set ds (fun v hv => List.mem_append_left _ hv) hmid⟩

theorem contribB_snoc_down {V : Type} [DecidableEq V] (ds : V → Option V)
    (order P : List V) (x d : V)
    (hclosed : ∀ u e, u ∈ order → ds u = some e → e ∈ order)
    (htopo : ∀ u e, u ∈ order → ds u = some e → order.indexOf u < order.indexOf e)
    (hx : x ∈ order) (hxd : ds x = some d) (u : V) (hu_ord : u ∈ order) :
    contribB ds (P ++ [x]) order.length u d =
      (contribB ds P order.length u d || contribB ds (P ++ [x]) order.length u x) := by
  have hxP' : x ∈ P ++ [x] := List.mem_append_right _ (List.mem_cons_self x [])
  apply bool_eq_of_iff
  constructor
  · intro h
    obtain ⟨hu, hmid⟩ := contribB_eq_true_iff.mp h
    simp only [Bool.or_eq_true]
    by_cases hux : u = x
    · exact Or.inr (contribB_eq_true_iff.mpr
        ⟨hu, by rw [hux]; exact midB_self ds (P ++ [x]) order.length x⟩)
    · rcases midB_snoc_split ds P x d hmid with hl | hr
      · have huP : u ∈ P := by
          rcases List.mem_append.mp hu with h | h
          · exact h
          · exact absurd (by simpa using h) hux
        exact Or.inl (contribB_eq_true_iff.mpr ⟨huP, hl⟩)
      · exact Or.inr (contribB_eq_true_iff.mpr ⟨hu, hr⟩)
  · intro h
    simp only [Bool.or_eq_true] at h
    rcases h with h | h
    · obtain ⟨hu, hmid⟩ := contribB_eq_true_iff.mp h
      exact contribB_eq_true_iff.mpr ⟨List.mem_append_left _ hu,
        midB_mono_set ds (fun v hv => List.mem_append_left _ hv) hmid⟩
    · obtain ⟨hu, hmid⟩ := contribB_eq_true_iff.mp h
      refine contribB_eq_true_iff.mpr ⟨hu, ?_⟩
      obtain ⟨k, _, hdsk, hmem⟩ := midB_extract ds (P ++ [x]) hu hmid
      have hkx : order.indexOf u + k ≤ order.indexOf x := dsIter_idx hclosed htopo hu_ord hdsk
      have hxlen : order.indexOf x < order.length := List.indexOf_lt_length.mpr hx
      have hk1 : k + 1 ≤ order.length := by omega
      have hmidk : midB ds (P ++ [x]) k u x := midB_of_dsIter ds (P ++ [x]) hdsk hmem
      exact midB_mono_fuel ds (P ++ [x]) hk1 (midB_append_edge ds (P ++ [x]) x d hxP' hxd hmidk)

theorem contribB_excl {V : Type} [DecidableEq V] (ds : V → Option V)
    (order P : List V) (x d : V) (L : ℕ)
    (hclosed : ∀ u e, u ∈ order → ds u = some e → e ∈ order)
    (htopo : ∀ u e, u ∈ order → ds u = some e → order.indexOf u < order.indexOf e)
    (hPsub : ∀ v, v ∈ P → v ∈ order) (hxP : x ∉ P) (hx : x ∈ order)
    (hxd : ds x = some d) (u : V) :
    ¬(contribB ds P L u d = true ∧ contribB ds (P ++ [x]) L u x = true) := by
  rintro ⟨h1, h2⟩
  obtain ⟨huP, hmid1⟩ := contribB_eq_true_iff.mp h1
  obtain ⟨huP', hmid2⟩ := contribB_eq_true_iff.mp h2
  have hu_ord : u ∈ order := hPsub u huP
  obtain ⟨k1, _, hds1, hmem1⟩ := midB_extract ds P huP hmid1
  obtain ⟨k2, _, hds2, hmem2⟩ := midB_extract ds (P ++ [x]) huP' hmid2
  rcases lt_trichotomy k2 k1 with hlt | heq | hgt
  · exact hxP (hmem1 k2 hlt x hds2)
  · subst heq
    rw [hds1] at hds2
    injection hds2 with hdx
    have := htopo x d hx hxd
    rw [hdx] at this
    exact lt_irrefl _ this
  · have hsplit : dsIter ds (k1 + (k2 - k1)) u = (dsIter ds k1 u).bind (dsIter ds (k2 - k1)) :=
      dsIter_add ds k1 (k2 - k1) u
    have hk2 : k1 + (k2 - k1) = k2 := by omega
    rw [hk2, hds2, hds1] at hsplit
    have hdm : dsIter ds (k2 - k1) d = some x := by
      simpa using hsplit.symm
    have hd_ord : d ∈ order := dsIter_mem hclosed hu_ord hds1
    have hidx : order.indexOf d + (k2 - k1) ≤ order.indexOf x :=
      dsIter_idx hclosed htopo hd_ord hdm
    have := htopo x d hx hxd
    omega

theorem sum_map_filter_congr {V : Type} (l : List V) (p q : V → Bool) (g : V → ℚ)
    (h : ∀ u ∈ l, p u = q u) :
    ((l.filter p).map g).sum = ((l.filter q).map g).sum := by
  rw [List.filter_congr h]

theorem sum_map_filter_or_single {V : Type} [DecidableEq V] (l : List V) (x : V)
    (p : V → Bool) (g : V → ℚ) (hnodup : l.Nodup) (hx : x ∈ l) (hpx : p x = false) :
    ((l.filter (fun u => p u || decide (u = x))).map g).sum =
      ((l.filter p).map g).sum + g x := by
  induction l with
  | nil => cases hx
  | cons a t ih =>
    obtain ⟨hat, hnd⟩ := List.nodup_cons.mp hnodup
    rw [List.filter_cons, List.filter_cons]
    rcases List.mem_cons.mp hx with heq | hxt
    · subst heq
      have hfil : t.filter (fun u => p u || decide (u = x)) = t.filter p := by
        apply List.filter_congr
        intro u hu
        have hux : ¬(u = x) := fun h => hat (h ▸ hu)
        simp [hux]
      have h1 : (p x || decide (x = x)) = true := by simp
      have h2 : ¬(p x = true) := by simp [hpx]
      rw [if_pos h1, if_neg h2, hfil, List.map_cons, List.sum_cons]
      ring
    · have hax : ¬(a = x) := fun h => hat (h ▸ hxt)
      have hrec := ih hnd hxt
      have hcond : (p a || decide (a = x)) = p a := by simp [hax]
      rw [hcond]
      cases hpa : p a
      · rw [if_neg Bool.false_ne_true, if_neg Bool.false_ne_true]
        exact hrec
      · rw [if_pos rfl, if_pos rfl]
        simp only [List.map_cons, List.sum_cons, hrec]
        ring

theorem sum_map_filter_or_disjoint {V : Type} (l : List V) (p q : V → Bool) (g : V → ℚ)
    (hdisj : ∀ u ∈ l, ¬(p u = true ∧ q u = true)) :
    ((l.filter (fun u => p u || q u)).map g).sum =
      ((l.filter p).map g).sum + ((l.filter q).map g).sum := by
  induction l with
  | nil => simp
  | cons a t ih =>
    have hrec := ih (fun u hu => hdisj u (List.mem_cons_of_mem a hu))
    have hda := hdisj a (List.mem_cons_self a t)
    rw [List.filter_cons, List.filter_cons, List.filter_cons]
    cases hpa : p a <;> cases hqa : q a
    · have h1 : ¬((false || false : Bool) = true) := by simp
      rw [if_neg h1, if_neg Bool.false_ne_true, if_neg Bool.false_ne_true]
      exact hrec
    · have h1 : ((false || true : Bool) = true) := by simp
      rw [if_pos h1, if_neg Bool.false_ne_true, if_pos rfl]
      simp only [List.map_cons, List.sum_cons, hrec]
      ring
    · have h1 : ((true || false : Bool) = true) := by simp
      rw [if_pos h1, if_pos rfl, if_neg Bool.false_ne_true]
      simp only [List.map_cons, List.sum_cons, hrec]
      ring
    · exact absurd ⟨hpa, hqa⟩ hda

theorem indexOf_append_of_mem_left {V : Type} [DecidableEq V] {a : V} {l1 l2 : List V}
    (h : a ∈ l1) : (l1 ++ l2).indexOf a = l1.indexOf a := by
  induction l1 with
  | nil => cases h
  | cons b t ih =>
    by_cases hba : b = a
    · rw [List.cons_append, List.indexOf_cons_eq _ hba, List.indexOf_cons_eq _ hba]
    · have hat : a ∈ t := by
        rcases List.mem_cons.mp h with h1 | h1
        · exact absurd h1.symm hba
        · exact h1
      rw [List.cons_append, List.indexOf_cons_ne _ hba, List.indexOf_cons_ne _ hba, ih hat]

theorem indexOf_append_of_not_mem_left {V : Type} [DecidableEq V] {a : V}
    {l1 l2 : List V} (h : a ∉ l1) : (l1 ++ l2).indexOf a = l1.length + l2.indexOf a := by
  induction l1 with
  | nil => simp
  | cons b t ih =>
    have hba : b ≠ a := fun hh => h (hh ▸ List.mem_cons_self b t)
    have hat : a ∉ t := fun hh => h (List.mem_cons_of_mem b hh)
    rw [List.cons_append, List.indexOf_cons_ne _ hba, ih hat, List.length_cons]
    omega

theorem idx_lt_of_mem_left {V : Type} [DecidableEq V] {order P rest : List V} {x : V}
    (horder : order = P ++ x :: rest) (hnodup : order.Nodup) :
    ∀ v ∈ P, order.indexOf v < order.indexOf x := by
  intro v hv
  have hxP : x ∉ P := by
    intro hxP
    rw [horder] at hnodup
    exact (List.disjoint_of_nodup_append hnodup) hxP (List.mem_cons_self x rest)
  rw [horder, indexOf_append_of_mem_left hv, indexOf_append_of_not_mem_left hxP,
    List.indexOf_cons_self]
  have := List.indexOf_lt_length.mpr hv
  omega

theorem mix_invariant {V : Type} [DecidableEq V] (ds : V → Option V)
    (area rate tracer : V → ℚ) (order : List V) (hnodup : order.Nodup)
    (hclosed : ∀ u e, u ∈ order → ds u = some e → e ∈ order)
    (htopo : ∀ u e, u ∈ order → ds u = some e → order.indexOf u < order.indexOf e) :
    ∀ (P rest : List V), order = P ++ rest → ∀ n : V,
      (P.foldl (mixStep ds area rate tracer)
        ⟨fun _ => 0, fun _ => 0⟩).totalFlux n =
        ((order.filter (fun u => contribB ds P order.length u n)).map
          (fun u => area u * rate u)).sum ∧
      (P.foldl (mixStep ds area rate tracer)
        ⟨fun _ => 0, fun _ => 0⟩).totalTracerFlux n =
        ((order.filter (fun u => contribB ds P order.length u n)).map
          (fun u => area u * rate u * tracer u)).sum := by
  intro P
  induction P using List.reverseRecOn with
  | nil =>
    intro rest horder n
    constructor <;> simp [contribB]
  | append_singleton P x ih =>
    intro rest hsplit n
    have horder : order = P ++ x :: rest := by
      rw [hsplit, List.append_assoc]
      rfl
    have hxmem : x ∈ order := by
      rw [horder]
      exact List.mem_append_right _ (List.mem_cons_self x rest)
    have hnodup2 : (P ++ x :: rest).Nodup := by rw [← horder]; exact hnodup
    have hxP : x ∉ P := fun hxp =>
      (List.disjoint_of_nodup_append hnodup2) hxp (List.mem_cons_self x rest)
    have hPsub : ∀ v, v ∈ P → v ∈ order := fun v hv => by
      rw [horder]; exact List.mem_append_left _ hv
    have hidxP : ∀ v ∈ P, order.indexOf v < order.indexOf x :=
      idx_lt_of_mem_left horder hnodup
    have hIH := ih (x :: rest) horder
    have hcx : contribB ds P order.length x x = false := by simp [contribB, hxP]
    have hsum_x : ∀ g : V → ℚ,
        ((order.filter (fun u => contribB ds (P ++ [x]) order.length u x)).map g).sum =
          ((order.filter (fun u => contribB ds P order.length u x)).map g).sum + g x := by
      intro g
      rw [sum_map_filter_congr order _ _ g
        (fun u _ => contribB_snoc_self ds P x order.length hxP u)]
      exact sum_map_filter_or_single order x _ g hnodup hxmem hcx
    simp only [List.foldl_append, List.foldl_cons, List.foldl_nil]
    cases hds : ds x with
    | none =>
      simp only [mixStep, hds]
      by_cases hn : n = x
      · subst hn
        simp only [eq_self_iff_true, if_true]
        refine ⟨?_, ?_⟩
        · rw [hsum_x (fun u => area u * rate u), ← (hIH n).1]
        · rw [hsum_x (fun u => area u * rate u * tracer u), ← (hIH n).2]
      · simp only [if_neg hn]
        have hpt : ∀ u ∈ order, contribB ds (P ++ [x]) order.length u n =
            contribB ds P order.length u n :=
          fun u _ => contribB_snoc_other ds P x n order.length hxP hn
            (fun e he => absurd he (by simp [hds])) u
        refine ⟨?_, ?_⟩
        · rw [sum_map_filter_congr order _ _ _ hpt]
          exact (hIH n).1
        · rw [sum_map_filter_congr order _ _ _ hpt]
          exact (hIH n).2
    | some d =>
      have hidxxd : order.indexOf x < order.indexOf d := htopo x d hxmem hds
      have hdx : d ≠ x := fun h => by rw [h] at hidxxd; exact lt_irrefl _ hidxxd
      have hdP' : d ∉ P ++ [x] := by
        intro hdm
        rcases List.mem_append.mp hdm with h | h
        · have := hidxP d h
          omega
        · exact hdx (by simpa using h)
      simp only [mixStep, hds]
      by_cases hn : n = d
      · subst hn
        have hpt : ∀ u ∈ order, contribB ds (P ++ [x]) order.length u n =
            (contribB ds P order.length u n || contribB ds (P ++ [x]) order.length u x) :=
          fun u hu => contribB_snoc_down ds order P x n hclosed htopo hxmem hds u hu
        have hdisj : ∀ u ∈ order,
            ¬(contribB ds P order.length u n = true ∧
              contribB ds (P ++ [x]) order.length u x = true) :=
          fun u _ => contribB_excl ds order P x n order.length hclosed htopo hPsub
            hxP hxmem hds u
        simp only [eq_self_iff_true, if_true, if_neg hdx]
        refine ⟨?_, ?_⟩
        · rw [sum_map_filter_congr order _ _ _ hpt,
            sum_map_filter_or_disjoint order _ _ _ hdisj,
            hsum_x (fun u => area u * rate u), ← (hIH n).1, ← (hIH x).1]
        · rw [sum_map_filter_congr order _ _ _ hpt,
            sum_map_filter_or_disjoint order _ _ _ hdisj,
            hsum_x (fun u => area u * rate u * tracer u), ← (hIH n).2, ← (hIH x).2]
      · by_cases hnx : n = x
        · subst hnx
          simp only [if_neg hn, eq_self_iff_true, if_true]
          refine ⟨?_, ?_⟩
          · rw [hsum_x (fun u => area u * rate u), ← (hIH n).1]
          · rw [hsum_x (fun u => area u * rate u * tracer u), ← (hIH n).2]
        · simp only [if_neg hn, if_neg hnx]
          have hpt : ∀ u ∈ order, contribB ds (P ++ [x]) order.length u n =
              contribB ds P order.length u n :=
            fun u _ => contribB_snoc_other ds P x n order.length hxP hnx
              (fun e he => by
                rw [hds] at he
                injection he with he
                exact he ▸ ⟨hdP', fun hdn => hn hdn.symm⟩) u
          refine ⟨?_, ?_⟩
          · rw [sum_map_filter_congr order _ _ _ hpt]
            exact (hIH n).1
          · rw [sum_map_filter_congr order _ _ _ hpt]
            exact (hIH n).2

/-! ## Claim C1 -/

/-- C1: for every acyclic network in which each node has at most one
downstream edge (`ds`), traversed in a topological order (`order`, in
which every node precedes its downstream neighbour), and for every
assignment of positive areas, export rates and tracer values, the
accumulation performed by `mix_downstream` (and, with `rltv_area` in
place of `area`, by `_build_primary_terms`) gives every node `n` a total
flux equal to the sum of `area(u) * exportRate(u)` over the upstream
closure of `n` (including `n`), and a total tracer flux equal to the sum
of `area(u) * exportRate(u) * tracerValue(u)` over the same set. -/
theorem claim_C1_flux_accumulation {V : Type} [DecidableEq V] (ds : V → Option V)
    (area rate tracer : V → ℚ) (order : List V) (hnodup : order.Nodup)
    (hclosed : ∀ u e, u ∈ order → ds u = some e → e ∈ order)
    (htopo : ∀ u e, u ∈ order → ds u = some e → order.indexOf u < order.indexOf e)
    (hareapos : ∀ v ∈ order, 0 < area v) (hratepos : ∀ v ∈ order, 0 < rate v)
    (htracerpos : ∀ v ∈ order, 0 < tracer v) (n : V) (hn : n ∈ order) :
    (mix_downstream ds area rate tracer order).totalFlux n =
      ((upstreamClosure ds order n).map (fun u => area u * rate u)).sum ∧
    (mix_downstream ds area rate tracer order).totalTracerFlux n =
      ((upstreamClosure ds order n).map (fun u => area u * rate u * tracer u)).sum := by
  have hinv := mix_invariant ds area rate tracer order hnodup hclosed htopo order []
    (by simp) n
  have hpt : ∀ u ∈ order, contribB ds order order.length u n =
      reachesIn ds order.length u n := by
    intro u hu
    apply bool_eq_of_iff
    constructor
    · intro h
      exact midB_to_reachesIn ds order (contribB_eq_true_iff.mp h).2
    · intro h
      exact contribB_eq_true_iff.mpr ⟨hu, reachesIn_to_midB ds order hclosed hu h⟩
  unfold mix_downstream upstreamClosure
  constructor
  · rw [hinv.1]
    exact sum_map_filter_congr order _ _ _ hpt
  · rw [hinv.2]
    exact sum_map_filter_congr order _ _ _ hpt

/-- A concrete three-node network for the C1 witness: nodes 0 and 1 both
drain into node 2, which is the outlet. -/
def wds : Fin 3 → Option (Fin 3) := fun v => if v.val < 2 then some 2 else none

/-- The topological order of the witness network. -/
def worder : List (Fin 3) := [0, 1, 2]

/-- Concrete positive areas for the witness network. -/
def warea : Fin 3 → ℚ := fun v => if v = 0 then 2 else if v = 1 then 3 else 4

/-- Concrete positive export rates for the witness network. -/
def wrate : Fin 3 → ℚ := fun _ => 1

/-- Concrete positive tracer values for the witness network. -/
def wtracer : Fin 3 → ℚ := fun v => if v = 0 then 5 else if v = 1 then 7 else 1

/-- Witness for C1 at the outlet of the concrete three-node network. -/
theorem claim_C1_flux_accumulation_witness :
    (worder.Nodup ∧ (2 : Fin 3) ∈ worder) ∧
    ((mix_downstream wds warea wrate wtracer worder).totalFlux 2 =
      ((upstreamClosure wds worder 2).map (fun u => warea u * wrate u)).sum ∧
    (mix_downstream wds warea wrate wtracer worder).totalTracerFlux 2 =
      ((upstreamClosure wds worder 2).map
        (fun u => warea u * wrate u * wtracer u)).sum) :=
  ⟨⟨by decide, by decide⟩,
    claim_C1_flux_accumulation wds warea wrate wtracer worder (by decide) (by decide)
      (by decide) (by decide) (by decide) (by decide) 2 (by decide)⟩

/-! ## Upstream prediction getters (sample_network_unmix.py, lines 679-741)

`get_upstream_prediction_map` refuses to run on a discrete problem, and
`get_upstream_prediction_dictionary` refuses to run on a continuous one.
In continuous mode the map starts from `np.zeros` in the raster's shape
and, looping over grid columns and, inside, grid rows, assigns every
pixel block `[int(j*ystep), int((j+1)*ystep)) x [int(i*xstep),
int((i+1)*xstep))` the solved concentration of inversion node `(j, i)`;
a node with no bound value yields `NaN` (modelled as `none`; numpy
coerces the unbound `None` into `nan` on assignment). -/

/-- One edge of the pixel block owned by grid cell `k` along an axis:
`int(k * (extent / cells))`. -/
def blockEdge (extent cells k : ℕ) : ℕ :=
  (pyInt ((k : ℚ) * ((extent : ℚ) / (cells : ℚ)))).toNat

/-- Assignment of one rectangular pixel block of the output raster:
`out[ys:ye, xs:xe] = v`. -/
def writeBlock (out : ℕ → ℕ → Option ℚ) (ys ye xs xe : ℕ) (v : Option ℚ) :
    ℕ → ℕ → Option ℚ :=
  fun r c => if ys ≤ r ∧ r < ye ∧ xs ≤ c ∧ c < xe then v else out r c

/-- The inner loop of `get_upstream_prediction_map` over grid rows `j`
for a fixed grid column `i`. -/
def stripFold (gny rows cols gnx : ℕ) (vals : ℕ → ℕ → Option ℚ) (i : ℕ)
    (out : ℕ → ℕ → Option ℚ) : ℕ → ℕ → Option ℚ :=
  (List.range gny).foldl (fun out2 j =>
    writeBlock out2 (blockEdge rows gny j) (blockEdge rows gny (j + 1))
      (blockEdge cols gnx i) (blockEdge cols gnx (i + 1)) (vals j i)) out

/-- The full double loop of `get_upstream_prediction_map`, starting from
the `np.zeros` raster. -/
def mapFold (gnx gny rows cols : ℕ) (vals : ℕ → ℕ → Option ℚ) :
    ℕ → ℕ → Option ℚ :=
  (List.range gnx).foldl (fun out i => stripFold gny rows cols gnx vals i out)
    (fun _ _ => some 0)

/-- Embeds `get_upstream_prediction_map`: raises on discrete problems,
otherwise fills every owned pixel block with its cell's value. -/
def get_upstream_prediction_map (continuous : Bool) (gnx gny rows cols : ℕ)
    (vals : ℕ → ℕ → Option ℚ) : Except String (ℕ → ℕ → Option ℚ) :=
  if !continuous then
    Except.error "Warning: get_upstream_prediction_map only valid for continuous networks"
  else Except.ok (mapFold gnx gny rows cols vals)

/-- Embeds `get_upstream_prediction_dictionary`: raises on continuous
problems, otherwise returns the per-site mapping of solved upstream
tracer values. -/
def get_upstream_prediction_dictionary (continuous : Bool)
    (vals : List (String × ℚ)) : Except String (List (String × ℚ)) :=
  if continuous then
    Except.error "Warning: get_upstream_prediction_dictionary only valid for discrete networks"
  else Except.ok vals

theorem pyInt_eq_floor_of_nonneg (q : ℚ) (hq : 0 ≤ q) : pyInt q = ⌊q⌋ := by
  unfold pyInt
  rw [Rat.floor_def]
  exact Int.tdiv_eq_ediv (Rat.num_nonneg.mpr hq) (Int.natCast_nonneg _)

theorem blockEdge_eq (extent cells k : ℕ) :
    blockEdge extent cells k = k * extent / cells := by
  by_cases hc : cells = 0
  · subst hc
    unfold blockEdge pyInt
    norm_num
  · have hq0 : (0 : ℚ) ≤ (k : ℚ) * ((extent : ℚ) / (cells : ℚ)) := by positivity
    unfold blockEdge
    rw [pyInt_eq_floor_of_nonneg _ hq0, Int.floor_toNat]
    have hqe : (k : ℚ) * ((extent : ℚ) / (cells : ℚ)) =
        ((k * extent : ℕ) : ℚ) / ((cells : ℕ) : ℚ) := by
      push_cast
      ring
    rw [hqe, Nat.floor_div_nat, Nat.floor_natCast]

theorem blockEdge_mono (extent cells : ℕ) {k k2 : ℕ} (h : k ≤ k2) :
    blockEdge extent cells k ≤ blockEdge extent cells k2 := by
  rw [blockEdge_eq, blockEdge_eq]
  exact Nat.div_le_div_right (Nat.mul_le_mul_right _ h)

theorem writeBlock_miss {out : ℕ → ℕ → Option ℚ} {ys ye xs xe r c : ℕ} {v : Option ℚ}
    (h : ¬(ys ≤ r ∧ r < ye ∧ xs ≤ c ∧ c < xe)) :
    writeBlock out ys ye xs xe v r c = out r c := by
  unfold writeBlock
  rw [if_neg h]

theorem writeBlock_hit {out : ℕ → ℕ → Option ℚ} {ys ye xs xe r c : ℕ} {v : Option ℚ}
    (h : ys ≤ r ∧ r < ye ∧ xs ≤ c ∧ c < xe) :
    writeBlock out ys ye xs xe v r c = v := by
  unfold writeBlock
  rw [if_pos h]

theorem foldWrite_preserve_col (rows cols gnx gny : ℕ) (vals : ℕ → ℕ → Option ℚ)
    (i : ℕ) :
    ∀ (J : List ℕ) (out : ℕ → ℕ → Option ℚ) (r c : ℕ),
      (c < blockEdge cols gnx i ∨ blockEdge cols gnx (i + 1) ≤ c) →
      (J.foldl (fun out2 j => writeBlock out2 (blockEdge rows gny j)
        (blockEdge rows gny (j + 1)) (blockEdge cols gnx i)
        (blockEdge cols gnx (i + 1)) (vals j i)) out) r c = out r c := by
  intro J
  induction J with
  | nil => intro out r c _; rfl
  | cons j J ih =>
    intro out r c hc
    rw [List.foldl_cons, ih _ r c hc, writeBlock_miss]
    intro hcon
    obtain ⟨_, _, h3, h4⟩ := hcon
    rcases hc with h | h <;> omega

theorem foldWrite_preserve_row (rows cols gnx gny : ℕ) (vals : ℕ → ℕ → Option ℚ)
    (i : ℕ) :
    ∀ (J : List ℕ) (out : ℕ → ℕ → Option ℚ) (r c : ℕ),
      (∀ j ∈ J, r < blockEdge rows gny j ∨ blockEdge rows gny (j + 1) ≤ r) →
      (J.foldl (fun out2 j => writeBlock out2 (blockEdge rows gny j)
        (blockEdge rows gny (j + 1)) (blockEdge cols gnx i)
        (blockEdge cols gnx (i + 1)) (vals j i)) out) r c = out r c := by
  intro J
  induction J with
  | nil => intro out r c _; rfl
  | cons j J ih =>
    intro out r c hrow
    rw [List.foldl_cons, ih _ r c (fun j2 hj2 => hrow j2 (List.mem_cons_of_mem j hj2)),
      writeBlock_miss]
    intro hcon
    obtain ⟨h1, h2, _, _⟩ := hcon
    rcases hrow j (List.mem_cons_self j J) with h | h <;> omega

theorem foldWrite_hit (rows cols gnx gny : ℕ) (vals : ℕ → ℕ → Option ℚ)
    (i j0 r c : ℕ)
    (hr1 : blockEdge rows gny j0 ≤ r) (hr2 : r < blockEdge rows gny (j0 + 1))
    (hc1 : blockEdge cols gnx i ≤ c) (hc2 : c < blockEdge cols gnx (i + 1)) :
    ∀ (J : List ℕ) (out : ℕ → ℕ → Option ℚ), J.Nodup → j0 ∈ J →
      (∀ j ∈ J, j ≠ j0 → (r < blockEdge rows gny j ∨ blockEdge rows gny (j + 1) ≤ r)) →
      (J.foldl (fun out2 j => writeBlock out2 (blockEdge rows gny j)
        (blockEdge rows gny (j + 1)) (blockEdge cols gnx i)
        (blockEdge cols gnx (i + 1)) (vals j i)) out) r c = vals j0 i := by
  intro J
  induction J with
  | nil => intro out _ hmem; cases hmem
  | cons j J ih =>
    intro out hnodup hmem hdisj
    rw [List.foldl_cons]
    by_cases hjj : j = j0
    · subst hjj
      have hjJ : j ∉ J := (List.nodup_cons.mp hnodup).1
      rw [foldWrite_preserve_row rows cols gnx gny vals i J _ r c
        (fun j2 hj2 => hdisj j2 (List.mem_cons_of_mem j hj2)
          (fun h => hjJ (h ▸ hj2)))]
      exact writeBlock_hit ⟨hr1, hr2, hc1, hc2⟩
    · have hj0J : j0 ∈ J := by
        rcases List.mem_cons.mp hmem with h | h
        · exact absurd h.symm hjj
        · exact h
      exact ih _ (List.nodup_cons.mp hnodup).2 hj0J
        (fun j2 hj2 hne => hdisj j2 (List.mem_cons_of_mem j hj2) hne)

theorem stripFold_hit (gny rows cols gnx : ℕ) (vals : ℕ → ℕ → Option ℚ)
    (i j0 r c : ℕ) (out : ℕ → ℕ → Option ℚ) (hj : j0 < gny)
    (hr1 : blockEdge rows gny j0 ≤ r) (hr2 : r < blockEdge rows gny (j0 + 1))
    (hc1 : blockEdge cols gnx i ≤ c) (hc2 : c < blockEdge cols gnx (i + 1)) :
    stripFold gny rows cols gnx vals i out r c = vals j0 i := by
  unfold stripFold
  apply foldWrite_hit rows cols gnx gny vals i j0 r c hr1 hr2 hc1 hc2
    (List.range gny) out (List.nodup_range gny) (List.mem_range.mpr hj)
  intro j _ hne
  rcases Nat.lt_or_ge j j0 with h | h
  · right
    exact le_trans (blockEdge_mono rows gny (by omega)) hr1
  · left
    have hj0j : j0 + 1 ≤ j := by omega
    exact lt_of_lt_of_le hr2 (blockEdge_mono rows gny hj0j)

theorem foldStrip_preserve (gny rows cols gnx : ℕ) (vals : ℕ → ℕ → Option ℚ) :
    ∀ (I : List ℕ) (out : ℕ → ℕ → Option ℚ) (r c : ℕ),
      (∀ i ∈ I, c < blockEdge cols gnx i ∨ blockEdge cols gnx (i + 1) ≤ c) →
      (I.foldl (fun out2 i => stripFold gny rows cols gnx vals i out2) out) r c =
        out r c := by
  intro I
  induction I with
  | nil => intro out r c _; rfl
  | cons i I ih =>
    intro out r c hcol
    rw [List.foldl_cons, ih _ r c (fun i2 hi2 => hcol i2 (List.mem_cons_of_mem i hi2))]
    exact foldWrite_preserve_col rows cols gnx gny vals i (List.range gny) out r c
      (hcol i (List.mem_cons_self i I))

theorem foldStrip_hit (gny rows cols gnx : ℕ) (vals : ℕ → ℕ → Option ℚ)
    (i0 j0 r c : ℕ) (hj : j0 < gny)
    (hr1 : blockEdge rows gny j0 ≤ r) (hr2 : r < blockEdge rows gny (j0 + 1))
    (hc1 : blockEdge cols gnx i0 ≤ c) (hc2 : c < blockEdge cols gnx (i0 + 1)) :
    ∀ (I : List ℕ) (out : ℕ → ℕ → Option ℚ), I.Nodup → i0 ∈ I →
      (∀ i ∈ I, i ≠ i0 → (c < blockEdge cols gnx i ∨ blockEdge cols gnx (i + 1) ≤ c)) →
      (I.foldl (fun out2 i => stripFold gny rows cols gnx vals i out2) out) r c =
        vals j0 i0 := by
  intro I
  induction I with
  | nil => intro out _ hmem; cases hmem
  | cons i I ih =>
    intro out hnodup hmem hdisj
    rw [List.foldl_cons]
    by_cases hii : i = i0
    · subst hii
      have hiI : i ∉ I := (List.nodup_cons.mp hnodup).1
      rw [foldStrip_preserve gny rows cols gnx vals I _ r c
        (fun i2 hi2 => hdisj i2 (List.mem_cons_of_mem i hi2)
          (fun h => hiI (h ▸ hi2)))]
      exact stripFold_hit gny rows cols gnx vals i j0 r c out hj hr1 hr2 hc1 hc2
    · have hi0I : i0 ∈ I := by
        rcases List.mem_cons.mp hmem with h | h
        · exact absurd h.symm hii
        · exact h
      exact ih _ (List.nodup_cons.mp hnodup).2 hi0I
        (fun i2 hi2 hne => hdisj i2 (List.mem_cons_of_mem i hi2) hne)

theorem mapFold_hit (gnx gny rows cols : ℕ) (vals : ℕ → ℕ → Option ℚ)
    (i0 j0 r c : ℕ) (hi : i0 < gnx) (hj : j0 < gny)
    (hr1 : blockEdge rows gny j0 ≤ r) (hr2 : r < blockEdge rows gny (j0 + 1))
    (hc1 : blockEdge cols gnx i0 ≤ c) (hc2 : c < blockEdge cols gnx (i0 + 1)) :
    mapFold gnx gny rows cols vals r c = vals j0 i0 := by
  unfold mapFold
  apply foldStrip_hit gny rows cols gnx vals i0 j0 r c hj hr1 hr2 hc1 hc2
    (List.range gnx) _ (List.nodup_range gnx) (List.mem_range.mpr hi)
  intro i _ hne
  rcases Nat.lt_or_ge i i0 with h | h
  · right
    exact le_trans (blockEdge_mono cols gnx (by omega)) hc1
  · left
    have hi0i : i0 + 1 ≤ i := by omega
    exact lt_of_lt_of_le hc2 (blockEdge_mono cols gnx hi0i)

/-! ## Claim C9 -/

/-- C9: in continuous mode the upstream prediction is the raster-shaped
map in which every pixel of the block owned by grid cell `(j, i)` holds
that cell's solved concentration (`none`, i.e. `NaN`, for a cell with no
bound variable); in discrete mode the upstream prediction is the
per-site mapping; asking for the map on a discrete problem, or for the
dictionary on a continuous one, fails. -/
theorem claim_C9_upstream_prediction (gnx gny rows cols : ℕ)
    (vals : ℕ → ℕ → Option ℚ) (dvals : List (String × ℚ)) (i j r c : ℕ)
    (hi : i < gnx) (hj : j < gny)
    (hr1 : blockEdge rows gny j ≤ r) (hr2 : r < blockEdge rows gny (j + 1))
    (hc1 : blockEdge cols gnx i ≤ c) (hc2 : c < blockEdge cols gnx (i + 1)) :
    exceptIsError (get_upstream_prediction_map false gnx gny rows cols vals) = true ∧
    exceptIsError (get_upstream_prediction_dictionary true dvals) = true ∧
    get_upstream_prediction_dictionary false dvals = Except.ok dvals ∧
    get_upstream_prediction_map true gnx gny rows cols vals =
      Except.ok (mapFold gnx gny rows cols vals) ∧
    mapFold gnx gny rows cols vals r c = vals j i :=
  ⟨rfl, rfl, rfl, rfl,
    mapFold_hit gnx gny rows cols vals i j r c hi hj hr1 hr2 hc1 hc2⟩

/-- Witness for C9: a one-cell grid over a 2-by-2 raster; every pixel of
the single block holds the single cell's value. -/
theorem claim_C9_upstream_prediction_witness :
    ((0 : ℕ) < 1 ∧ blockEdge 2 1 0 ≤ 1 ∧ 1 < blockEdge 2 1 1) ∧
    (exceptIsError (get_upstream_prediction_map false 1 1 2 2
        (fun _ _ => some 7)) = true ∧
      exceptIsError (get_upstream_prediction_dictionary true [("s1", 3)]) = true ∧
      get_upstream_prediction_dictionary false [("s1", 3)] =
        Except.ok [("s1", 3)] ∧
      get_upstream_prediction_map true 1 1 2 2 (fun _ _ => some 7) =
        Except.ok (mapFold 1 1 2 2 (fun _ _ => some 7)) ∧
      mapFold 1 1 2 2 (fun _ _ => some 7) 1 1 = (fun _ _ => some (7 : ℚ)) 0 0) :=
  ⟨⟨by decide, by rw [blockEdge_eq]; decide, by rw [blockEdge_eq]; decide⟩,
    claim_C9_upstream_prediction 1 1 2 2 (fun _ _ => some 7) [("s1", 3)] 0 0 1 1
      (by decide) (by decide)
      (by rw [blockEdge_eq]; decide) (by rw [blockEdge_eq]; decide)
      (by rw [blockEdge_eq]; decide) (by rw [blockEdge_eq]; decide)⟩
